import Mathlib

/-!
Verification of the `typed-big-integer` repository.

The repository ships a TypeScript declaration file (`src/index.d.ts`) for an
arbitrary-precision signed integer library, together with a test file; the
arithmetic engine itself is not part of the repository sources.  The engine is
therefore modelled here from the specification at the level of the integer
values an `Integer` denotes: the sign/magnitude digit store of an `Integer`
denotes exactly one mathematical integer, so every operation is modelled as a
function on `Int` (magnitudes appear as `Int.natAbs`, the non-negative
magnitude of the denoted value).  Fallible operations return `Except` over the
error kinds of the specification.
-/

namespace TypedBigInteger

/-- Modelled from the spec: the error kinds of the error-handling design
(`InvalidInteger`, `InvalidBaseZero`, `DivisionByZero`, `ShiftOutOfRange`,
`UnsupportedExponent`). -/
inductive BigIntError where
  | InvalidInteger
  | InvalidBaseZero
  | DivisionByZero
  | ShiftOutOfRange
  | UnsupportedExponent
deriving DecidableEq, Repr

/-- Modelled from the spec: the three-way comparator every comparison derives
from; returns -1, 0 or 1. -/
def compare (a b : Int) : Int :=
  if a < b then -1 else if b < a then 1 else 0

/-- Modelled from the spec: equality test, derived from the three-way
comparator. -/
def equals (a b : Int) : Bool :=
  decide (compare a b = 0)

/-- Modelled from the spec: inequality test, derived from the three-way
comparator (`notEquals` in the declaration). -/
def notEquals (a b : Int) : Bool :=
  !(equals a b)

/-- Modelled from the spec: `neq`, declared as an alias for the `notEquals`
method (src/index.d.ts lines 323-328). -/
def neq (a b : Int) : Bool :=
  notEquals a b

/-- Modelled from the spec: signed addition via sign reconciliation over
magnitudes — same-sign operands add magnitudes and keep the sign; differing
signs subtract the smaller magnitude from the larger and take the sign of the
larger-magnitude operand, ties producing zero. -/
def add (a b : Int) : Int :=
  if a < 0 ↔ b < 0 then
    if a < 0 then -((a.natAbs + b.natAbs : Nat) : Int) else ((a.natAbs + b.natAbs : Nat) : Int)
  else if a.natAbs = b.natAbs then 0
  else if b.natAbs < a.natAbs then
    if a < 0 then -((a.natAbs - b.natAbs : Nat) : Int) else ((a.natAbs - b.natAbs : Nat) : Int)
  else
    if b < 0 then -((b.natAbs - a.natAbs : Nat) : Int) else ((b.natAbs - a.natAbs : Nat) : Int)

/-- Modelled from the spec: negation is a sign flip. -/
def negate (a : Int) : Int := -a

/-- Modelled from the spec: subtraction delegates to addition of the
negation. -/
def subtract (a b : Int) : Int :=
  add a (negate b)

/-- Modelled from the spec: multiplication takes the magnitude product; the
result sign is negative iff exactly one operand is negative, a zero operand
forcing a zero result. -/
def multiply (a b : Int) : Int :=
  if a < 0 ↔ b < 0 then ((a.natAbs * b.natAbs : Nat) : Int)
  else -((a.natAbs * b.natAbs : Nat) : Int)

/-- Modelled from the spec: `next()` adds one to the number
(src/index.d.ts lines 330-337). -/
def next (a : Int) : Int := a + 1

/-- Modelled from the spec: `prev()` subtracts one from the number
(src/index.d.ts lines 398-405). -/
def prev (a : Int) : Int := a - 1

/-- Modelled from the spec: `divmod` converts the operands to magnitudes, runs
the magnitude long division (`0 ≤ remainder < |b|`), then re-signs: the
quotient is negative iff exactly one operand is negative and the remainder
takes the sign of the dividend (truncating division).  Fails with
`DivisionByZero` on a zero divisor. -/
def divmod (a b : Int) : Except BigIntError (Int × Int) :=
  if b = 0 then .error .DivisionByZero
  else
    .ok
      (if a < 0 ↔ b < 0 then ((a.natAbs / b.natAbs : Nat) : Int)
       else -((a.natAbs / b.natAbs : Nat) : Int),
       if a < 0 then -((a.natAbs % b.natAbs : Nat) : Int)
       else ((a.natAbs % b.natAbs : Nat) : Int))

/-- Modelled from the spec: `divide` performs the division and discards the
remainder. -/
def divide (a b : Int) : Except BigIntError Int :=
  (divmod a b).map Prod.fst

/-- Modelled from the spec: `mod` performs the division and discards the
quotient. -/
def mod (a b : Int) : Except BigIntError Int :=
  (divmod a b).map Prod.snd

/-- Modelled from the spec: `isDivisibleBy` returns true iff the first number
is divisible by the second. -/
def isDivisibleBy (a b : Int) : Bool :=
  decide (b ∣ a)

/-- Modelled from the spec: exponentiation of a magnitude-level base by
repeated squaring. -/
def sqPow (a : Int) (k : Nat) : Int :=
  if h : k = 0 then 1
  else
    let half := sqPow (a * a) (k / 2)
    if k % 2 = 1 then a * half else half
termination_by k
decreasing_by exact Nat.div_lt_self (Nat.pos_of_ne_zero h) (by omega)

/-- Modelled from the spec: `pow(n)` performs exponentiation by repeated
squaring; a negative exponent yields zero and `0.pow(0)` is `1`. -/
def pow (a : Int) (n : Int) : Int :=
  if n < 0 then 0 else sqPow a n.toNat

/-- Modelled from the spec: the representable-safe-integer bound for shift
amounts, `2^53 = 9007199254740992`. -/
def shiftBound : Nat := 9007199254740992

/-- Modelled from the spec: `shiftLeft(n)` shifts left by `n` binary places, a
negative `n` reversing the direction; fails with `ShiftOutOfRange` when the
magnitude of `n` exceeds the safe bound. -/
def shiftLeft (a : Int) (n : Int) : Except BigIntError Int :=
  if shiftBound < n.natAbs then .error .ShiftOutOfRange
  else if 0 ≤ n then .ok (a * 2 ^ n.toNat)
  else .ok (Int.fdiv a (2 ^ (-n).toNat))

/-- Modelled from the spec: `shiftRight(n)` shifts right by `n` binary places
(an arithmetic shift, i.e. flooring division by the power of two), a negative
`n` reversing the direction; fails with `ShiftOutOfRange` when the magnitude
of `n` exceeds the safe bound. -/
def shiftRight (a : Int) (n : Int) : Except BigIntError Int :=
  if shiftBound < n.natAbs then .error .ShiftOutOfRange
  else if 0 ≤ n then .ok (Int.fdiv a (2 ^ n.toNat))
  else .ok (a * 2 ^ (-n).toNat)

/-- Bitwise difference on magnitudes: bit `i` is set iff it is set in the
first operand and clear in the second. -/
def ndiff (m n : Nat) : Nat :=
  Nat.bitwise (fun x y => x && !y) m n

/-- Modelled from the spec: bit `i` of the infinite-width two's-complement
expansion of an integer — a negative number carries an implicit infinite run
of set bits above its highest explicit bit. -/
def tcBit (a : Int) (i : Nat) : Bool :=
  if 0 ≤ a then a.toNat.testBit i else !((-a - 1).toNat.testBit i)

/-- Modelled from the spec: bitwise OR with both operands reinterpreted as
infinite-width two's-complement bit sequences, emulated by sign-extended
digit-wise logic on magnitudes: a negative operand `x` enters as the
complement of the magnitude `-x - 1` and the result is negated back the same
way when its sign bit is set. -/
def or (a b : Int) : Int :=
  if 0 ≤ a then
    if 0 ≤ b then ((a.toNat ||| b.toNat : Nat) : Int)
    else -(((ndiff (-b - 1).toNat a.toNat : Nat) : Int) + 1)
  else
    if 0 ≤ b then -(((ndiff (-a - 1).toNat b.toNat : Nat) : Int) + 1)
    else -((((-a - 1).toNat &&& (-b - 1).toNat : Nat) : Int) + 1)

/-- Modelled from the spec: construction of an `Integer` from a native
machine number (the value it denotes). -/
def bigIntOf (n : Int) : Int := n

/-- Modelled from the spec: the prestored constant table for the contiguous
small-value range `[-999, 999]`, indexed by direct lookup.  The declared
`StaticBigInt` interface omits this table (the `TODO` at src/index.d.ts line
574), so it is modelled from the specification and the declaration's own
documentation comment. -/
def prestored (i : Int) : Option Int :=
  if -999 ≤ i ∧ i ≤ 999 then some (bigIntOf i) else none

/-- Modelled from the spec: the character for a single digit value below 36 —
`0`-`9` for values below ten and the letters `a`-`z` for 10 to 35. -/
def digitChar (d : Nat) : Char :=
  if d < 10 then Char.ofNat (48 + d) else Char.ofNat (97 + (d - 10))

/-- Modelled from the spec: the digit value of a single character — `0`-`9`
map to 0-9 and the letters `a`-`z` / `A`-`Z` map to 10-35. -/
def charDigit (c : Char) : Option Nat :=
  if 48 ≤ c.toNat ∧ c.toNat ≤ 57 then some (c.toNat - 48)
  else if 97 ≤ c.toNat ∧ c.toNat ≤ 122 then some (c.toNat - 97 + 10)
  else if 65 ≤ c.toNat ∧ c.toNat ≤ 90 then some (c.toNat - 65 + 10)
  else none

/-- Modelled from the spec: the little-endian digit expansion of a magnitude
in base `b2 + 2` by repeated division with remainder; the fuel argument (kept
at least the magnitude by every caller) makes the recursion structural. -/
def natDigitsFuel (b2 : Nat) : Nat → Nat → List Nat
  | _, 0 => []
  | 0, _ + 1 => []
  | fuel + 1, n + 1 => (n + 1) % (b2 + 2) :: natDigitsFuel b2 fuel ((n + 1) / (b2 + 2))

/-- Modelled from the spec: the little-endian digit expansion of a non-zero
magnitude `n` in a base `b ≥ 2`. -/
def natDigits (b : Nat) (n : Nat) : List Nat :=
  natDigitsFuel (b - 2) n n

/-- Modelled from the spec: evaluation of a little-endian digit sequence at a
natural-number radix. -/
def natEval (b : Nat) : List Nat → Nat
  | [] => 0
  | d :: ds => d + b * natEval b ds

/-- Modelled from the spec: the base `-1` digit expansion of a positive
magnitude — `n` one-digits at the even positions, where the base power is
`+1`. -/
def negaOnePos : Nat → List Nat
  | 0 => []
  | 1 => [1]
  | n + 2 => 1 :: 0 :: negaOnePos (n + 1)

/-- Modelled from the spec: the base `-1` digit expansion of a negative value
of magnitude `n` — `n` one-digits at the odd positions, where the base power
is `-1`. -/
def negaOneNeg : Nat → List Nat
  | 0 => []
  | n + 1 => 0 :: 1 :: negaOneNeg n

/-- Modelled from the spec: the unary-style base `-1` digit expansion of an
integer. -/
def negaOneDigits (x : Int) : List Nat :=
  if 0 ≤ x then negaOnePos x.natAbs else negaOneNeg x.natAbs

/-- Modelled from the spec: the little-endian alternating-sign digit expansion
of an integer in the negative base `-(m2 + 2)`: each step takes the
non-negative remainder of the value by the base magnitude as the digit and
continues with the negated Euclidean quotient. -/
def negaDigitsAux (m2 : Nat) (x : Int) : List Nat :=
  if hx : x = 0 then []
  else
    (x.emod ((m2 + 2 : Nat) : Int)).toNat ::
      negaDigitsAux m2 (-(x.ediv ((m2 + 2 : Nat) : Int)))
termination_by 2 * x.natAbs + (if x < 0 then 1 else 0)
decreasing_by
  have hm : ((2 : Int)) ≤ ((m2 + 2 : Nat) : Int) := by push_cast; omega
  set m : Int := ((m2 + 2 : Nat) : Int) with hmdef
  have hmod : 0 ≤ x.emod m := Int.emod_nonneg x (by omega)
  have hmodlt : x.emod m < m := Int.emod_lt_of_pos x (by omega)
  have hdm : m * x.ediv m + x.emod m = x := Int.ediv_add_emod x m
  rcases lt_trichotomy x 0 with hneg | hzero | hpos
  · have hq : x.ediv m < 0 := Int.ediv_neg' hneg (by omega)
    have hge : x ≤ x.ediv m := by
      by_contra hcon
      push_neg at hcon
      have h1 : m * x.ediv m ≤ m * (x - 1) :=
        mul_le_mul_of_nonneg_left (by omega) (by omega)
      have h2 : (m - 2) * x ≤ 0 := mul_nonpos_of_nonneg_of_nonpos (by omega) (by omega)
      nlinarith
    split_ifs <;> omega
  · exact absurd hzero hx
  · have hq : 0 ≤ x.ediv m := Int.ediv_nonneg (by omega) (by omega)
    have h1 : (m - 2) * x.ediv m ≥ 0 := mul_nonneg (by omega) hq
    have hqle : 2 * x.ediv m ≤ x := by nlinarith
    have hbig : 1 ≤ x.ediv m → 2 ≤ x := by
      intro hq1
      have h2 : m * (x.ediv m - 1) ≥ 0 := mul_nonneg (by omega) (by omega)
      nlinarith
    rcases Nat.eq_zero_or_pos (x.ediv m).natAbs with hq0 | hq1
    · split_ifs <;> omega
    · have := hbig (by omega)
      split_ifs <;> omega

/-- Modelled from the spec: the alternating-sign digit expansion of an integer
in a negative radix `r ≤ -2`. -/
def negaDigits (x : Int) (radix : Int) : List Nat :=
  negaDigitsAux (radix.natAbs - 2) x

/-- Modelled from the spec: the bound digits must stay below when parsed in a
given radix — the radix magnitude for ordinary radices, and 2 for the unary
radices 1 and -1 whose representations use the digits 0 and 1. -/
def digitBound (radix : Int) : Nat :=
  max radix.natAbs 2

/-- Modelled from the spec: the little-endian digit expansion of a non-zero
integer in a non-zero radix — unary expansions for radices 1 and -1, ordinary
repeated division for radices of magnitude at least 2 (sign handled by the
caller for positive radices, encoded in the expansion itself for negative
ones). -/
def digitsFor (x : Int) (radix : Int) : List Nat :=
  if radix = 1 then List.replicate x.natAbs 1
  else if radix = -1 then negaOneDigits x
  else if 2 ≤ radix then natDigits radix.toNat x.natAbs
  else negaDigits x radix

/-- Modelled from the spec: the characters of one digit — a single character
for values below 36, and the decimal value enclosed in angle brackets for
larger values. -/
def renderDigit (d : Nat) : List Char :=
  if d < 36 then [digitChar d]
  else '<' :: ((natDigits 10 d).reverse.map digitChar ++ ['>'])

/-- Modelled from the spec: the characters of a big-endian digit sequence. -/
def renderDigitsBE : List Nat → List Char
  | [] => []
  | d :: ds => renderDigit d ++ renderDigitsBE ds

/-- Modelled from the spec: the big-endian digit values of a character
sequence, reading single-character digits and angle-bracket decimal groups;
`none` on malformed input.  The first argument carries the accumulated value
of an open angle-bracket group. -/
def lexAux : Option Nat → List Char → Option (List Nat)
  | none, [] => some []
  | some _, [] => none
  | none, c :: rest =>
    if c = '<' then lexAux (some 0) rest
    else
      match charDigit c, lexAux none rest with
      | some d, some ds => some (d :: ds)
      | _, _ => none
  | some acc, c :: rest =>
    if c = '>' then
      if 36 ≤ acc then
        match lexAux none rest with
        | some ds => some (acc :: ds)
        | none => none
      else none
    else
      match charDigit c with
      | some d => if d < 10 then lexAux (some (10 * acc + d)) rest else none
      | none => none

/-- Modelled from the spec: evaluation of a little-endian digit sequence at an
integer radix. -/
def evalLE (r : Int) : List Nat → Int
  | [] => 0
  | d :: ds => (d : Int) + r * evalLE r ds

/-- Modelled from the spec: parsing of an unsigned digit-sequence body in a
non-zero radix — the body must be non-empty, lex into digits, every digit must
stay below the digit bound of the radix, and the value is the radix expansion
of the digits. -/
def parseBody (cs : List Char) (radix : Int) : Except BigIntError Int :=
  match cs with
  | [] => .error .InvalidInteger
  | _ :: _ =>
    match lexAux none cs with
    | some dsBE =>
      if dsBE.all (fun d => d < digitBound radix) then .ok (evalLE radix dsBE.reverse)
      else .error .InvalidInteger
    | none => .error .InvalidInteger

/-- Modelled from the spec: parsing of a character sequence in a given radix —
in radix 0 only the literal zero is valid input, any other value failing with
`InvalidBaseZero`; otherwise an optional leading minus sign negates the value
of the digit body and malformed input fails with `InvalidInteger`. -/
def parseChars (cs : List Char) (radix : Int) : Except BigIntError Int :=
  if radix = 0 then
    if cs = ['0'] then .ok 0 else .error .InvalidBaseZero
  else
    match cs with
    | [] => .error .InvalidInteger
    | c :: rest =>
      if c = '-' then (parseBody rest radix).map (fun v => -v)
      else parseBody cs radix

/-- Modelled from the spec: the characters of the formatted representation of
an integer in a radix — radix 0 is valid only for the value zero (emitting
`0`), zero always formats as `0`, positive radices render the magnitude
expansion behind an optional minus sign, and non-positive radices render the
sign-encoding expansion directly. -/
def formatChars (x : Int) (radix : Int) : Except BigIntError (List Char) :=
  if radix = 0 then
    if x = 0 then .ok ['0'] else .error .InvalidBaseZero
  else if x = 0 then .ok ['0']
  else if 0 < radix then
    if x < 0 then .ok ('-' :: renderDigitsBE (digitsFor x radix).reverse)
    else .ok (renderDigitsBE (digitsFor x radix).reverse)
  else .ok (renderDigitsBE (digitsFor x radix).reverse)

/-- Modelled from the spec: `Format(integer, radix)` — the string form of an
integer in a radix. -/
def Format (x : Int) (radix : Int) : Except BigIntError String :=
  (formatChars x radix).map String.mk

/-- Modelled from the spec: `Parse(string, radix)` — the integer denoted by a
string in a radix. -/
def Parse (s : String) (radix : Int) : Except BigIntError Int :=
  parseChars s.data radix

/-- Modelled from the spec: `toString(radix)` formats the receiver in the
given radix. -/
def toString (a : Int) (radix : Int) : Except BigIntError String :=
  Format a radix

/-- Signed addition computes integer addition. -/
theorem add_eq (a b : Int) : add a b = a + b := by
  unfold add
  split_ifs <;> omega

/-- Signed subtraction computes integer subtraction. -/
theorem subtract_eq (a b : Int) : subtract a b = a - b := by
  rw [subtract, negate, add_eq]; ring

/-- Signed multiplication computes integer multiplication. -/
theorem multiply_eq (a b : Int) : multiply a b = a * b := by
  unfold multiply
  have habs : ((a.natAbs * b.natAbs : Nat) : Int) = ((a * b).natAbs : Int) := by
    rw [Int.natAbs_mul]
  split_ifs with h
  · have hnn : 0 ≤ a * b := by
      rcases lt_or_le a 0 with ha | ha
      · exact le_of_lt (mul_pos_of_neg_of_neg ha (h.mp ha))
      · exact mul_nonneg ha (by omega)
    rw [habs]
    generalize a * b = c at hnn ⊢
    omega
  · have hnp : a * b ≤ 0 := by
      rcases lt_or_le a 0 with ha | ha
      · exact mul_nonpos_of_nonpos_of_nonneg (le_of_lt ha) (by omega)
      · exact mul_nonpos_of_nonneg_of_nonpos ha (by omega)
    rw [habs]
    generalize a * b = c at hnp ⊢
    omega

/-- The comparator-derived equality test decides integer equality. -/
theorem equals_iff (a b : Int) : equals a b = true ↔ a = b := by
  simp only [equals, compare, decide_eq_true_eq]
  split_ifs <;> simp <;> omega

/-- The division/modulo pair satisfies the truncating-division contract. -/
theorem divmod_key (a b : Int) (hb : b ≠ 0) :
    ∃ q r : Int,
      divmod a b = .ok (q, r) ∧
      q * b + r = a ∧
      (r = 0 ∨ (0 < a ∧ 0 < r) ∨ (a < 0 ∧ r < 0)) := by
  have hd : ((b.natAbs : Int)) * ((a.natAbs / b.natAbs : Nat) : Int) +
      ((a.natAbs % b.natAbs : Nat) : Int) = ((a.natAbs : Int)) := by
    exact_mod_cast Nat.div_add_mod a.natAbs b.natAbs
  have hmodle : a.natAbs % b.natAbs ≤ a.natAbs := Nat.mod_le _ _
  refine ⟨(if a < 0 ↔ b < 0 then ((a.natAbs / b.natAbs : Nat) : Int)
      else -((a.natAbs / b.natAbs : Nat) : Int)),
    (if a < 0 then -((a.natAbs % b.natAbs : Nat) : Int)
      else ((a.natAbs % b.natAbs : Nat) : Int)), ?_, ?_, ?_⟩
  · rw [divmod, if_neg hb]
  · by_cases ha : a < 0 <;> by_cases hbn : b < 0
    · rw [if_pos (by tauto), if_pos ha]
      have e1 : ((a.natAbs : Int)) = -a := by omega
      have e2 : ((b.natAbs : Int)) = -b := by omega
      rw [e1, e2] at hd
      linarith [hd]
    · rw [if_neg (by tauto), if_pos ha]
      have e1 : ((a.natAbs : Int)) = -a := by omega
      have e2 : ((b.natAbs : Int)) = b := by omega
      rw [e1, e2] at hd
      linarith [hd]
    · rw [if_neg (by tauto), if_neg ha]
      have e1 : ((a.natAbs : Int)) = a := by omega
      have e2 : ((b.natAbs : Int)) = -b := by omega
      rw [e1, e2] at hd
      linarith [hd]
    · rw [if_pos (by tauto), if_neg ha]
      have e1 : ((a.natAbs : Int)) = a := by omega
      have e2 : ((b.natAbs : Int)) = b := by omega
      rw [e1, e2] at hd
      linarith [hd]
  · by_cases ha : a < 0
    · rw [if_pos ha]
      omega
    · rw [if_neg ha]
      omega

/-- The quotient-only and remainder-only operations agree with `divmod`. -/
theorem divmod_divide_mod (a b : Int) (q r : Int) (h : divmod a b = .ok (q, r)) :
    divide a b = .ok q ∧ mod a b = .ok r := by
  rw [divide, mod, h]
  exact ⟨rfl, rfl⟩

/-- C1.  Division is truncating: for every integer `a` and every non-zero
integer `b`, `divmod a b` returns a quotient `q` and remainder `r` with
`q * b + r = a` and the sign of `r` matching the sign of `a` (or `r = 0`); in
particular `-5 divmod 2` yields quotient `-2` and remainder `-1`, and
`divide` returns the same `q` while `mod` returns the same `r`. -/
theorem divmod_truncating_claim1 (a b : Int) (hb : b ≠ 0) :
    ∃ q r : Int,
      divmod a b = .ok (q, r) ∧
      q * b + r = a ∧
      (r = 0 ∨ (0 < a ∧ 0 < r) ∨ (a < 0 ∧ r < 0)) ∧
      divide a b = .ok q ∧ mod a b = .ok r ∧
      divmod (-5) 2 = .ok (-2, -1) := by
  obtain ⟨q, r, h1, h2, h3⟩ := divmod_key a b hb
  obtain ⟨h4, h5⟩ := divmod_divide_mod a b q r h1
  exact ⟨q, r, h1, h2, h3, h4, h5, rfl⟩

/-- Witness for C1 at the documented input `59 divmod 5`. -/
theorem divmod_truncating_claim1_witness :
    ∃ q r : Int,
      divmod 59 5 = .ok (q, r) ∧
      q * 5 + r = 59 ∧
      (r = 0 ∨ (0 < (59 : Int) ∧ 0 < r) ∨ ((59 : Int) < 0 ∧ r < 0)) ∧
      divide 59 5 = .ok q ∧ mod 59 5 = .ok r ∧
      divmod (-5) 2 = .ok (-2, -1) :=
  divmod_truncating_claim1 59 5 (by decide)

/-- Exponentiation by repeated squaring computes the monoid power. -/
theorem sqPow_eq (k : Nat) (a : Int) : sqPow a k = a ^ k := by
  induction k using Nat.strong_induction_on generalizing a with
  | _ k ih =>
    rw [sqPow]
    by_cases hk : k = 0
    · simp [hk]
    · rw [dif_neg hk]
      have ih2 := ih (k / 2) (Nat.div_lt_self (Nat.pos_of_ne_zero hk) (by omega)) (a * a)
      have hsq : (a * a) ^ (k / 2) = a ^ (2 * (k / 2)) := by
        rw [two_mul, pow_add, ← mul_pow]
      by_cases hpar : k % 2 = 1
      · rw [if_pos hpar, ih2, hsq, mul_comm, ← pow_succ]
        congr 1
        omega
      · rw [if_neg hpar, ih2, hsq]
        congr 1
        omega

/-- A negative exponent yields zero. -/
theorem pow_neg_zero (a n : Int) (h : n < 0) : pow a n = 0 := by
  rw [pow, if_pos h]

/-- Zero to the power zero is one. -/
theorem pow_zero_zero : pow 0 0 = 1 := by
  rw [pow, if_neg (by omega), sqPow_eq]
  rfl

/-- C6.  Exponentiation via `pow`: for every integer `a` and every negative
exponent `n`, `pow a n` returns zero, and `pow 0 0` returns 1. -/
theorem pow_claim6 (a n : Int) : (n < 0 → pow a n = 0) ∧ pow 0 0 = 1 :=
  ⟨pow_neg_zero a n, pow_zero_zero⟩

/-- Witness for C6 at the concrete exponent `-3`. -/
theorem pow_claim6_witness : pow 2 (-3) = 0 ∧ pow 0 0 = 1 :=
  ⟨(pow_claim6 2 (-3)).1 (by decide), (pow_claim6 2 (-3)).2⟩

/-- An in-range negative shift amount reverses the direction. -/
theorem shift_reverse (a n : Int) (h : n.natAbs ≤ shiftBound) :
    shiftLeft a (-n) = shiftRight a n := by
  have hL : shiftLeft a (-n) =
      if 0 ≤ -n then Except.ok (a * 2 ^ (-n).toNat)
      else Except.ok (Int.fdiv a (2 ^ (- -n).toNat)) := by
    rw [shiftLeft, if_neg (by rw [Int.natAbs_neg]; omega)]
  have hR : shiftRight a n =
      if 0 ≤ n then Except.ok (Int.fdiv a (2 ^ n.toNat))
      else Except.ok (a * 2 ^ (-n).toNat) := by
    rw [shiftRight, if_neg (by omega)]
  rw [hL, hR]
  rcases lt_trichotomy n 0 with hn | hn | hn
  · rw [if_pos (by omega), if_neg (by omega)]
  · subst hn
    norm_num [Int.fdiv_one]
  · rw [if_neg (by omega), if_pos (by omega), neg_neg]

/-- An out-of-range shift amount makes both shifts fail. -/
theorem shift_range (a n : Int) (h : shiftBound < n.natAbs) :
    shiftLeft a n = .error .ShiftOutOfRange ∧ shiftRight a n = .error .ShiftOutOfRange := by
  rw [shiftLeft, shiftRight, if_pos h, if_pos h]
  exact ⟨rfl, rfl⟩

/-- C5.  A negative shift amount reverses the shift direction and an
out-of-range amount fails: for every integer `a` and every `n` with
`|n| ≤ 2^53`, `shiftLeft a (-n) = shiftRight a n`, and for every `n` with
`|n| > 2^53` both shifts fail with `ShiftOutOfRange`. -/
theorem shift_claim5 (a n : Int) :
    (n.natAbs ≤ shiftBound → shiftLeft a (-n) = shiftRight a n) ∧
    (shiftBound < n.natAbs →
      shiftLeft a n = .error .ShiftOutOfRange ∧
      shiftRight a n = .error .ShiftOutOfRange) :=
  ⟨shift_reverse a n, shift_range a n⟩

/-- Witness for C5 at the documented shift of 8 by 2 and at the first
out-of-range amount. -/
theorem shift_claim5_witness :
    shiftLeft 8 (-2) = shiftRight 8 2 ∧
    (shiftLeft 8 9007199254740993 = .error .ShiftOutOfRange ∧
     shiftRight 8 9007199254740993 = .error .ShiftOutOfRange) :=
  ⟨(shift_claim5 8 2).1 (by decide), (shift_claim5 8 9007199254740993).2 (by decide)⟩

/-- Bit extraction from the magnitude bitwise difference. -/
theorem ndiff_testBit (m n i : Nat) : (ndiff m n).testBit i = (m.testBit i && !n.testBit i) :=
  Nat.testBit_bitwise rfl m n i

/-- Every two's-complement bit of a bitwise OR is the disjunction of the
operand bits. -/
theorem or_bit (a b : Int) (i : Nat) :
    tcBit (TypedBigInteger.or a b) i = (tcBit a i || tcBit b i) := by
  unfold TypedBigInteger.or tcBit
  by_cases ha : 0 ≤ a <;> by_cases hb : 0 ≤ b
  · rw [if_pos ha, if_pos hb, if_pos ha, if_pos hb, if_pos (by positivity)]
    rw [Int.toNat_natCast, Nat.testBit_lor]
  · have hk : (0 : Int) ≤ ((ndiff (-b - 1).toNat a.toNat : Nat) : Int) := by positivity
    rw [if_pos ha, if_neg hb, if_pos ha, if_neg hb, if_neg (by omega)]
    have he : (-(-(((ndiff (-b - 1).toNat a.toNat : Nat) : Int) + 1)) - 1) =
        ((ndiff (-b - 1).toNat a.toNat : Nat) : Int) := by ring
    rw [he, Int.toNat_natCast, ndiff_testBit]
    cases h1 : a.toNat.testBit i <;> cases h2 : (-b - 1).toNat.testBit i <;> rfl
  · have hk : (0 : Int) ≤ ((ndiff (-a - 1).toNat b.toNat : Nat) : Int) := by positivity
    rw [if_neg ha, if_pos hb, if_neg ha, if_pos hb, if_neg (by omega)]
    have he : (-(-(((ndiff (-a - 1).toNat b.toNat : Nat) : Int) + 1)) - 1) =
        ((ndiff (-a - 1).toNat b.toNat : Nat) : Int) := by ring
    rw [he, Int.toNat_natCast, ndiff_testBit]
    cases h1 : b.toNat.testBit i <;> cases h2 : (-a - 1).toNat.testBit i <;> rfl
  · have hk : (0 : Int) ≤ (((-a - 1).toNat &&& (-b - 1).toNat : Nat) : Int) := by positivity
    rw [if_neg ha, if_neg hb, if_neg ha, if_neg hb, if_neg (by omega)]
    have he : (-(-((((-a - 1).toNat &&& (-b - 1).toNat : Nat) : Int) + 1)) - 1) =
        (((-a - 1).toNat &&& (-b - 1).toNat : Nat) : Int) := by ring
    rw [he, Int.toNat_natCast, Nat.testBit_land]
    cases h1 : (-a - 1).toNat.testBit i <;> cases h2 : (-b - 1).toNat.testBit i <;> rfl

/-- C3.  Bitwise OR under two's-complement reinterpretation: for every pair
of integers, every bit of the infinite-width two's-complement expansion of
`or a b` is the disjunction of the corresponding operand bits, and in
particular `13 or 10 = 15` and `13 or -8 = -3`. -/
theorem or_twoscomp_claim3 :
    (∀ (a b : Int) (i : Nat), tcBit (TypedBigInteger.or a b) i = (tcBit a i || tcBit b i)) ∧
    TypedBigInteger.or 13 10 = 15 ∧ TypedBigInteger.or 13 (-8) = -3 := by
  refine ⟨or_bit, by decide, ?_⟩
  have hnd : ndiff 7 13 = 2 := by simp [ndiff, Nat.bitwise]
  rw [TypedBigInteger.or, if_pos (by norm_num), if_neg (by norm_num)]
  have h7 : Int.toNat 7 = 7 := rfl
  have h13 : Int.toNat 13 = 13 := rfl
  norm_num [h7, h13, hnd]

/-- C4.  The modelled prestored constant table is defined on every index `i`
of the contiguous range `[-999, 999]` and is value-equal to direct
construction of `i`. -/
theorem prestored_claim4 (i : Int) (h1 : -999 ≤ i) (h2 : i ≤ 999) :
    prestored i = some (bigIntOf i) := by
  rw [prestored, if_pos ⟨h1, h2⟩]

/-- Witness for C4 at the three indices the constants test exercises. -/
theorem prestored_claim4_witness :
    prestored (-999) = some (bigIntOf (-999)) ∧
    prestored 0 = some (bigIntOf 0) ∧
    prestored 999 = some (bigIntOf 999) :=
  ⟨prestored_claim4 (-999) (by decide) (by decide),
   prestored_claim4 0 (by decide) (by decide),
   prestored_claim4 999 (by decide) (by decide)⟩

/-- C8.  `neq` is an alias of `notEquals`: for every pair of integers the two
return the same boolean, which is true exactly when the numbers differ. -/
theorem neq_claim8 (a b : Int) :
    neq a b = notEquals a b ∧ (neq a b = true ↔ ¬a = b) := by
  constructor
  · rfl
  · rw [neq, notEquals]
    cases h : equals a b
    · simp only [Bool.not_false, true_iff]
      intro hab
      have h2 := (equals_iff a b).mpr hab
      rw [h] at h2
      exact Bool.false_ne_true h2
    · simp only [Bool.not_true, Bool.false_eq_true, false_iff, not_not]
      exact (equals_iff a b).mp h

/-- C9.  `isDivisibleBy` agrees with `mod`: for every integer `a` and every
non-zero integer `b`, `isDivisibleBy a b` is true iff `mod a b` is zero. -/
theorem isDivisibleBy_claim9 (a b : Int) (hb : b ≠ 0) :
    isDivisibleBy a b = true ↔ mod a b = .ok 0 := by
  rw [isDivisibleBy, decide_eq_true_eq, mod, divmod, if_neg hb]
  rw [← Int.natAbs_dvd_natAbs, Nat.dvd_iff_mod_eq_zero]
  simp only [Except.map, Except.ok.injEq]
  split_ifs with ha <;> omega

/-- Witness for C9 at the documented divisible pair `(999, 333)`. -/
theorem isDivisibleBy_claim9_witness :
    isDivisibleBy 999 333 = true ↔ mod 999 333 = .ok 0 :=
  isDivisibleBy_claim9 999 333 (by decide)

/-- C10.  `next` and `prev` are unit increments: for every integer `a`,
`next a` equals `add a 1` and `prev a` equals `subtract a 1`. -/
theorem next_prev_claim10 (a : Int) :
    next a = add a 1 ∧ prev a = subtract a 1 := by
  rw [add_eq, subtract_eq]
  exact ⟨rfl, rfl⟩

/-- A digit value below 36 renders to a character that parses back to it and is none of the marker characters. -/
theorem digitChar_spec (d : Nat) (h : d < 36) :
    charDigit (digitChar d) = some d ∧
    digitChar d ≠ '<' ∧ digitChar d ≠ '>' ∧ digitChar d ≠ '-' := by
  revert h
  revert d
  decide

/-- Scanning the decimal characters of an open angle-bracket group folds them into the accumulator. -/
theorem lexAux_dec (ms : List Nat) (hms : ∀ m ∈ ms, m < 10) (acc : Nat) (rest : List Char) :
    lexAux (some acc) (ms.map digitChar ++ '>' :: rest) =
      lexAux (some (ms.foldl (fun a m => 10 * a + m) acc)) ('>' :: rest) := by
  induction ms generalizing acc with
  | nil => rfl
  | cons m ms ih =>
    have hm : m < 10 := hms m (by simp)
    obtain ⟨hcd, _, hgt, _⟩ := digitChar_spec m (by omega)
    rw [List.map_cons, List.cons_append, lexAux, if_neg hgt, hcd]
    simp only [if_pos hm]
    rw [ih (fun x hx => hms x (by simp [hx])), List.foldl_cons]

/-- Folding a reversed digit list big-endian computes its little-endian evaluation. -/
theorem foldl_reverse_natEval (b : Nat) (L : List Nat) (acc : Nat) :
    L.reverse.foldl (fun a m => b * a + m) acc = acc * b ^ L.length + natEval b L := by
  induction L generalizing acc with
  | nil => simp [natEval]
  | cons d ds ih =>
    rw [List.reverse_cons, List.foldl_append, ih]
    simp only [List.foldl_cons, List.foldl_nil, natEval, List.length_cons]
    ring

/-- The fuelled digit expansion evaluates back to the expanded magnitude. -/
theorem natDigitsFuel_eval (b2 : Nat) (fuel n : Nat) (h : n ≤ fuel) :
    natEval (b2 + 2) (natDigitsFuel b2 fuel n) = n := by
  induction fuel generalizing n with
  | zero =>
    interval_cases n
    rfl
  | succ fuel ih =>
    match n with
    | 0 => rfl
    | n + 1 =>
      rw [natDigitsFuel, natEval]
      have hlt : (n + 1) / (b2 + 2) < n + 1 := Nat.div_lt_self (by omega) (by omega)
      rw [ih ((n + 1) / (b2 + 2)) (by omega)]
      exact Nat.mod_add_div (n + 1) (b2 + 2)

/-- Every digit of the fuelled expansion is below the base. -/
theorem natDigitsFuel_lt (b2 : Nat) (fuel n : Nat) (d : Nat)
    (hd : d ∈ natDigitsFuel b2 fuel n) : d < b2 + 2 := by
  induction fuel generalizing n with
  | zero =>
    match n with
    | 0 => simp [natDigitsFuel] at hd
    | n + 1 => simp [natDigitsFuel] at hd
  | succ fuel ih =>
    match n with
    | 0 => simp [natDigitsFuel] at hd
    | n + 1 =>
      rw [natDigitsFuel] at hd
      rcases List.mem_cons.mp hd with h1 | h2
      · subst h1
        exact Nat.mod_lt _ (by omega)
      · exact ih _ h2

/-- The fuelled expansion of a non-zero magnitude is non-empty. -/
theorem natDigitsFuel_ne_nil (b2 : Nat) (fuel n : Nat) (hn : n ≠ 0) (hf : fuel ≠ 0) :
    natDigitsFuel b2 fuel n ≠ [] := by
  match fuel, n with
  | fuel + 1, n + 1 => rw [natDigitsFuel]; simp

/-- Digit evaluation at a natural radix agrees with the natural evaluation. -/
theorem evalLE_natCast (b : Nat) (L : List Nat) :
    evalLE (b : Int) L = ((natEval b L : Nat) : Int) := by
  induction L with
  | nil => rfl
  | cons d ds ih =>
    rw [evalLE, natEval, ih]
    push_cast
    ring

/-- A rendered digit starts with a character other than the minus sign. -/
theorem renderDigit_head (d : Nat) :
    ∃ c cs, renderDigit d = c :: cs ∧ c ≠ '-' := by
  by_cases h : d < 36
  · obtain ⟨_, _, _, h4⟩ := digitChar_spec d h
    exact ⟨digitChar d, [], by rw [renderDigit, if_pos h], h4⟩
  · exact ⟨'<', _, by rw [renderDigit, if_neg h], by decide⟩

/-- Lexing inverts rendering on every big-endian digit sequence. -/
theorem lex_render (ds : List Nat) :
    lexAux none (renderDigitsBE ds) = some ds := by
  induction ds with
  | nil => rfl
  | cons d ds ih =>
    rw [renderDigitsBE]
    by_cases h : d < 36
    · obtain ⟨hcd, hlt, _, _⟩ := digitChar_spec d h
      rw [renderDigit, if_pos h, List.singleton_append, lexAux, if_neg hlt, hcd, ih]
    · rw [renderDigit, if_neg h]
      rw [List.cons_append, List.append_assoc, List.singleton_append]
      rw [lexAux, if_pos rfl]
      have hdec : ∀ m ∈ (natDigits 10 d).reverse, m < 10 := by
        intro m hm
        have := natDigitsFuel_lt 8 d d m (List.mem_reverse.mp hm)
        omega
      rw [lexAux_dec _ hdec 0 (renderDigitsBE ds)]
      have hval : (natDigits 10 d).reverse.foldl (fun a m => 10 * a + m) 0 = d := by
        rw [foldl_reverse_natEval 10 (natDigits 10 d) 0]
        simp only [Nat.zero_mul, Nat.zero_add]
        exact natDigitsFuel_eval 8 d d (le_refl d)
      rw [hval, lexAux, if_pos rfl, if_pos (by omega), ih]

/-- A rendered non-empty digit sequence starts with a character other than the minus sign. -/
theorem renderDigitsBE_head (d : Nat) (ds : List Nat) :
    ∃ c cs, renderDigitsBE (d :: ds) = c :: cs ∧ c ≠ '-' := by
  obtain ⟨c, cs, hc, hne⟩ := renderDigit_head d
  exact ⟨c, cs ++ renderDigitsBE ds, by rw [renderDigitsBE, hc, List.cons_append], hne⟩

/-- The digit bound of any radix is at least two. -/
theorem digitBound_ge_two (radix : Int) : 2 ≤ digitBound radix :=
  le_max_right _ _

/-- Parsing the rendering of a bounded non-empty digit sequence recovers its value. -/
theorem parseBody_render (radix : Int) (ds : List Nat) (hne : ds ≠ [])
    (hval : ∀ d ∈ ds, d < digitBound radix) :
    parseBody (renderDigitsBE ds.reverse) radix = .ok (evalLE radix ds) := by
  obtain ⟨d, tl, hrev⟩ := List.exists_cons_of_ne_nil (by simpa using hne :
    ds.reverse ≠ [])
  obtain ⟨c, cs, hc, _⟩ := renderDigitsBE_head d tl
  have hall : ds.reverse.all (fun d => decide (d < digitBound radix)) = true := by
    rw [List.all_eq_true]
    intro x hx
    exact decide_eq_true (hval x (List.mem_reverse.mp hx))
  rw [hrev, hc, parseBody, ← hc, ← hrev]
  simp only [lex_render, hall, if_true, List.reverse_reverse]

/-- Parsing an unsigned rendering in a non-zero radix recovers its value. -/
theorem parseChars_render (radix : Int) (hr : radix ≠ 0) (ds : List Nat) (hne : ds ≠ [])
    (hval : ∀ d ∈ ds, d < digitBound radix) :
    parseChars (renderDigitsBE ds.reverse) radix = .ok (evalLE radix ds) := by
  obtain ⟨d, tl, hrev⟩ := List.exists_cons_of_ne_nil (by simpa using hne :
    ds.reverse ≠ [])
  obtain ⟨c, cs, hc, hcne⟩ := renderDigitsBE_head d tl
  rw [hrev, hc, parseChars, if_neg hr, if_neg hcne, ← hc, ← hrev]
  exact parseBody_render radix ds hne hval

/-- Parsing a minus-signed rendering in a non-zero radix recovers the negated value. -/
theorem parseChars_neg_render (radix : Int) (hr : radix ≠ 0) (ds : List Nat) (hne : ds ≠ [])
    (hval : ∀ d ∈ ds, d < digitBound radix) :
    parseChars ('-' :: renderDigitsBE ds.reverse) radix = .ok (-(evalLE radix ds)) := by
  rw [parseChars, if_neg hr, if_pos rfl, parseBody_render radix ds hne hval]
  rfl

/-- The single character `0` parses to zero in every non-zero radix. -/
theorem parseChars_zero_char (radix : Int) (hr : radix ≠ 0) :
    parseChars ['0'] radix = .ok 0 := by
  rw [parseChars, if_neg hr, if_neg (by decide), parseBody]
  have hlex : lexAux none ['0'] = some [0] := rfl
  have hall : [0].all (fun d => decide (d < digitBound radix)) = true := by
    have := digitBound_ge_two radix
    simp only [List.all_cons, List.all_nil, Bool.and_true]
    exact decide_eq_true (by omega)
  simp only [hlex, hall, if_true]
  simp [evalLE]

/-- The unary base-1 expansion evaluates to its length. -/
theorem evalLE_replicate_one (n : Nat) :
    evalLE 1 (List.replicate n 1) = n := by
  induction n with
  | zero => rfl
  | succ n ih =>
    rw [List.replicate_succ, evalLE, ih]
    push_cast
    ring

/-- The base `-1` expansion of a positive magnitude evaluates to it. -/
theorem negaOnePos_eval (n : Nat) : evalLE (-1) (negaOnePos n) = n := by
  induction n using Nat.strong_induction_on with
  | _ n ih =>
    match n with
    | 0 => rfl
    | 1 => norm_num [negaOnePos, evalLE]
    | n + 2 =>
      rw [negaOnePos, evalLE, evalLE, ih (n + 1) (by omega)]
      push_cast
      ring

/-- The base `-1` expansion of a negative value evaluates to it. -/
theorem negaOneNeg_eval (n : Nat) : evalLE (-1) (negaOneNeg n) = -(n : Int) := by
  induction n with
  | zero => rfl
  | succ n ih =>
    rw [negaOneNeg, evalLE, evalLE, ih]
    push_cast
    ring

/-- The base `-1` positive expansion uses only the digits 0 and 1. -/
theorem negaOnePos_lt (n d : Nat) (hd : d ∈ negaOnePos n) : d < 2 := by
  induction n using Nat.strong_induction_on with
  | _ n ih =>
    match n with
    | 0 => simp [negaOnePos] at hd
    | 1 =>
      rw [negaOnePos] at hd
      rcases List.mem_singleton.mp hd with h
      omega
    | n + 2 =>
      rw [negaOnePos] at hd
      rcases List.mem_cons.mp hd with h1 | h2
      · omega
      · rcases List.mem_cons.mp h2 with h3 | h4
        · omega
        · exact ih (n + 1) (by omega) h4

/-- The base `-1` negative expansion uses only the digits 0 and 1. -/
theorem negaOneNeg_lt (n d : Nat) (hd : d ∈ negaOneNeg n) : d < 2 := by
  induction n with
  | zero => simp [negaOneNeg] at hd
  | succ n ih =>
    rw [negaOneNeg] at hd
    rcases List.mem_cons.mp hd with h1 | h2
    · omega
    · rcases List.mem_cons.mp h2 with h3 | h4
      · omega
      · exact ih h4

/-- The base `-1` positive expansion of a non-zero magnitude is non-empty. -/
theorem negaOnePos_ne_nil (n : Nat) (hn : n ≠ 0) : negaOnePos n ≠ [] := by
  match n with
  | 1 => rw [negaOnePos]; simp
  | n + 2 => rw [negaOnePos]; simp

/-- The base `-1` negative expansion of a non-zero magnitude is non-empty. -/
theorem negaOneNeg_ne_nil (n : Nat) (hn : n ≠ 0) : negaOneNeg n ≠ [] := by
  match n with
  | n + 1 => rw [negaOneNeg]; simp

/-- The alternating-sign expansion evaluates back to the expanded integer. -/
theorem negaDigitsAux_eval (m2 : Nat) (x : Int) :
    evalLE (-((m2 + 2 : Nat) : Int)) (negaDigitsAux m2 x) = x := by
  induction x using negaDigitsAux.induct m2 with
  | case1 => rw [negaDigitsAux, dif_pos rfl]; rfl
  | case2 x hx ih =>
    rw [negaDigitsAux, dif_neg hx, evalLE, ih]
    have hm : (0 : Int) < ((m2 + 2 : Nat) : Int) := by push_cast; omega
    have hmod : 0 ≤ x.emod ((m2 + 2 : Nat) : Int) := Int.emod_nonneg x (by omega)
    have hdm : ((m2 + 2 : Nat) : Int) * x.ediv ((m2 + 2 : Nat) : Int) +
        x.emod ((m2 + 2 : Nat) : Int) = x := Int.ediv_add_emod x _
    rw [Int.toNat_of_nonneg hmod]
    linarith [hdm]

/-- Every digit of the alternating-sign expansion is below the base magnitude. -/
theorem negaDigitsAux_lt (m2 : Nat) (x : Int) (d : Nat)
    (hd : d ∈ negaDigitsAux m2 x) : d < m2 + 2 := by
  induction x using negaDigitsAux.induct m2 with
  | case1 =>
    rw [negaDigitsAux, dif_pos rfl] at hd
    simp at hd
  | case2 x hx ih =>
    rw [negaDigitsAux, dif_neg hx] at hd
    rcases List.mem_cons.mp hd with h1 | h2
    · subst h1
      have hmodlt : x.emod ((m2 + 2 : Nat) : Int) < ((m2 + 2 : Nat) : Int) :=
        Int.emod_lt_of_pos x (by push_cast; omega)
      have hmod : 0 ≤ x.emod ((m2 + 2 : Nat) : Int) := Int.emod_nonneg x (by push_cast; omega)
      omega
    · exact ih h2

/-- The alternating-sign expansion of a non-zero integer is non-empty. -/
theorem negaDigitsAux_ne_nil (m2 : Nat) (x : Int) (hx : x ≠ 0) :
    negaDigitsAux m2 x ≠ [] := by
  rw [negaDigitsAux, dif_neg hx]
  simp

/-- The digit expansion of a non-zero integer in a non-zero radix is non-empty, bounded, and evaluates to the magnitude for positive radices and to the integer itself otherwise. -/
theorem digitsFor_spec (x radix : Int) (hx : x ≠ 0) (hr : radix ≠ 0) :
    digitsFor x radix ≠ [] ∧
    (∀ d ∈ digitsFor x radix, d < digitBound radix) ∧
    evalLE radix (digitsFor x radix) =
      (if 0 < radix then ((x.natAbs : Nat) : Int) else x) := by
  have hna : x.natAbs ≠ 0 := by omega
  by_cases h1 : radix = 1
  · subst h1
    rw [digitsFor, if_pos rfl]
    refine ⟨by simpa using hna, ?_, ?_⟩
    · intro d hd
      rw [List.eq_of_mem_replicate hd, digitBound]
      omega
    · rw [evalLE_replicate_one, if_pos (by omega)]
  · by_cases h2 : radix = -1
    · subst h2
      rw [digitsFor, if_neg h1, if_pos rfl, negaOneDigits]
      by_cases hxp : 0 ≤ x
      · rw [if_pos hxp]
        refine ⟨negaOnePos_ne_nil _ hna, ?_, ?_⟩
        · intro d hd
          have := negaOnePos_lt x.natAbs d hd
          rw [digitBound]
          omega
        · rw [negaOnePos_eval, if_neg (by omega)]
          omega
      · rw [if_neg hxp]
        refine ⟨negaOneNeg_ne_nil _ hna, ?_, ?_⟩
        · intro d hd
          have := negaOneNeg_lt x.natAbs d hd
          rw [digitBound]
          omega
        · rw [negaOneNeg_eval, if_neg (by omega)]
          omega
    · by_cases h3 : 2 ≤ radix
      · rw [digitsFor, if_neg h1, if_neg h2, if_pos h3, natDigits]
        have hb : radix.toNat - 2 + 2 = radix.toNat := by omega
        refine ⟨natDigitsFuel_ne_nil _ _ _ hna hna, ?_, ?_⟩
        · intro d hd
          have := natDigitsFuel_lt (radix.toNat - 2) x.natAbs x.natAbs d hd
          rw [digitBound]
          omega
        · have hev : natEval (radix.toNat - 2 + 2)
              (natDigitsFuel (radix.toNat - 2) x.natAbs x.natAbs) = x.natAbs :=
            natDigitsFuel_eval _ _ _ (le_refl _)
          rw [hb] at hev
          have hcast : radix = ((radix.toNat : Nat) : Int) := by omega
          rw [if_pos (by omega), hcast, evalLE_natCast]
          simp only [Int.toNat_natCast]
          rw [hev]
      · rw [digitsFor, if_neg h1, if_neg h2, if_neg h3, negaDigits]
        have habs : radix.natAbs - 2 + 2 = radix.natAbs := by omega
        refine ⟨negaDigitsAux_ne_nil _ _ hx, ?_, ?_⟩
        · intro d hd
          have := negaDigitsAux_lt (radix.natAbs - 2) x d hd
          rw [digitBound]
          omega
        · have hev := negaDigitsAux_eval (radix.natAbs - 2) x
          rw [habs] at hev
          have hneg : -((radix.natAbs : Nat) : Int) = radix := by omega
          rw [hneg] at hev
          rw [if_neg (by omega), hev]

/-- C2.  String conversion round-trips exactly: for every radix and every integer whose formatting in that radix succeeds, parsing the formatted string back in the same radix yields the original integer. -/
theorem roundtrip_claim2 (x radix : Int) (s : String) (h : Format x radix = .ok s) :
    Parse s radix = .ok x := by
  rcases hfc : formatChars x radix with e | cs
  · rw [Format, hfc] at h
    exact absurd h (by simp [Except.map])
  · rw [Format, hfc] at h
    simp only [Except.map, Except.ok.injEq] at h
    subst h
    show parseChars cs radix = .ok x
    rw [formatChars] at hfc
    by_cases h0 : radix = 0
    · rw [if_pos h0] at hfc
      by_cases hx : x = 0
      · rw [if_pos hx] at hfc
        injection hfc with hcs
        subst hcs
        rw [parseChars, if_pos h0, if_pos rfl, hx]
      · rw [if_neg hx] at hfc
        exact absurd hfc (by simp)
    · rw [if_neg h0] at hfc
      by_cases hx : x = 0
      · rw [if_pos hx] at hfc
        injection hfc with hcs
        subst hcs
        rw [parseChars_zero_char radix h0, hx]
      · rw [if_neg hx] at hfc
        obtain ⟨hne, hval, heval⟩ := digitsFor_spec x radix hx h0
        by_cases hpos : 0 < radix
        · rw [if_pos hpos] at hfc
          rw [if_pos hpos] at heval
          by_cases hneg : x < 0
          · rw [if_pos hneg] at hfc
            injection hfc with hcs
            subst hcs
            rw [parseChars_neg_render radix h0 _ hne hval, heval]
            congr 1
            omega
          · rw [if_neg hneg] at hfc
            injection hfc with hcs
            subst hcs
            rw [parseChars_render radix h0 _ hne hval, heval]
            congr 1
            omega
        · rw [if_neg hpos] at hfc
          rw [if_neg hpos] at heval
          injection hfc with hcs
          subst hcs
          rw [parseChars_render radix h0 _ hne hval, heval]

/-- C7.  Formatting in base 0 succeeds only for zero: `toString 0 0` returns the string `0`, and for every non-zero integer the conversion fails with `InvalidBaseZero`. -/
theorem basezero_claim7 :
    toString 0 0 = .ok "0" ∧ ∀ x : Int, x ≠ 0 → toString x 0 = .error .InvalidBaseZero := by
  constructor
  · rfl
  · intro x hx
    rw [toString, Format, formatChars, if_pos rfl, if_neg hx]
    rfl

/-- Witness for C2 at the documented conversion of 567890 to base 100. -/
theorem roundtrip_claim2_witness : Parse "<56><78><90>" 100 = .ok 567890 :=
  roundtrip_claim2 567890 100 "<56><78><90>" (by rfl)

/-- Witness for C7 at the documented non-zero value 1. -/
theorem basezero_claim7_witness :
    toString 0 0 = .ok "0" ∧ toString 1 0 = .error .InvalidBaseZero :=
  ⟨basezero_claim7.1, basezero_claim7.2 1 (by decide)⟩

end TypedBigInteger
